import Mathlib

/-!
Verification of the control-flow revert-pruning core of the solidity
compiler front end: a shallow embedding of
`libsolidity/analysis/ControlFlowRevertPruner.cpp` (revert-state
classification and call-site pruning) and of the control-flow-graph
registry construction (`CFG::constructFlow`, `CFG::visit`), together with
theorems settling the specification claims about them.

Machine pointers are modelled as natural-number identifiers
(`NodeId`, `ContractId`, `CallableId`); the node arena is a `List CFGNode`
indexed by `NodeId`; `std::set` / `std::map` iteration order (pointer
order) is modelled by a total order on the identifier encodings.
-/

/-- Identifier of a contract definition (models `ContractDefinition const*`). -/
abbrev ContractId := Nat

/-- Identifier of a callable declaration (models `CallableDeclaration const*`). -/
abbrev CallableId := Nat

/-- Identifier of a CFG node (models `CFGNode*`, an index into the arena). -/
abbrev NodeId := Nat

/-- `VirtualLookup` of a modifier invocation (`annotation().requiredLookup`). -/
inductive VirtualLookup where
  | vvirtual
  | vstatic
deriving DecidableEq, Repr

/-- The data of a `ModifierInvocation` AST node that the pruner consumes:
the referenced declaration after the `dynamic_cast<ModifierDefinition const*>`
(`none` when the referenced declaration is not a modifier definition), and
the required lookup discipline. -/
structure ModifierInvocationData where
  referencedModifier : Option CallableId
  requiredLookup : VirtualLookup
deriving DecidableEq, Repr

/-- A CFG node (`CFGNode` of ControlFlowGraph.h): entry/exit edge lists plus
the optional semantic tags read by the pruner. `functionCall` holds an
identifier of the call expression, resolved through
`Program.resolveFunctionCall`. -/
structure CFGNode where
  entries : List NodeId := []
  exits : List NodeId := []
  placeholderStatement : Bool := false
  functionCall : Option Nat := none
  modifierInvocation : Option ModifierInvocationData := none
deriving DecidableEq, Repr

instance : Inhabited CFGNode := ⟨{}⟩

/-- `FunctionFlow`: the three distinguished node handles of one callable's
flow graph. -/
structure FunctionFlow where
  entry : NodeId
  exit : NodeId
  revert : NodeId
deriving DecidableEq, Repr

/-- `CFG::ContractCallableTuple`: the key of one analyzable unit —
a contract context (`none` for free functions) and a callable. -/
structure ContractCallableTuple where
  contract : Option ContractId
  callable : CallableId
deriving DecidableEq, Repr

/-- `RevertState` of ControlFlowRevertPruner.h. -/
inductive RevertState where
  | Unknown
  | HasNonRevertingPath
  | AllPathsRevert
  | ModifierRevertPassthrough
deriving DecidableEq, Repr

/-- The whole analyzed program: the node arena, the registry key set
(`m_cfg.allFunctionFlows()` domain), the flow lookup
(`m_cfg.functionFlow`, defined on the registry keys), and the
type-checker-provided AST facts consumed by the pruner
(implementation status, declaring contract, inheritance, and the
external virtual-dispatch resolvers). -/
structure Program where
  nodes : List CFGNode
  flowKeys : List ContractCallableTuple
  flow : ContractCallableTuple → FunctionFlow
  isModifierDef : CallableId → Bool
  isImplemented : CallableId → Bool
  annotationContract : CallableId → Option ContractId
  derivesFrom : ContractId → ContractId → Bool
  resolveVirtualModifier : CallableId → ContractId → CallableId
  resolveFunctionCall : Nat → Option ContractId → Option CallableId

/-- Encoding of an optional contract id, injective into `Nat`. -/
def optEnc : Option ContractId → Nat
  | none => 0
  | some c => c + 1

/-- Injective encoding of a key into `Nat`; stands in for the pointer order
used by `std::set`/`std::map` over `ContractCallableTuple`. -/
def keyEnc (k : ContractCallableTuple) : Nat :=
  Nat.pair (optEnc k.contract) k.callable

/-- Insertion into a strictly `enc`-sorted list, with set semantics
(an element with the same encoding is not inserted again). Models
`std::set::insert`. -/
def insertEnc (enc : α → Nat) (x : α) : List α → List α
  | [] => [x]
  | y :: ys =>
    if enc x < enc y then x :: y :: ys
    else if enc x = enc y then y :: ys
    else y :: insertEnc enc x ys

/-- Sorting a list into a strictly `enc`-sorted duplicate-free list;
models the key set of a `std::set`/`std::map` built from the list. -/
def sortEnc (enc : α → Nat) (l : List α) : List α :=
  l.foldl (fun acc x => insertEnc enc x acc) []

/-- `solidity::frontend::findScopeContract`: the scope contract of a
resolved callee — keep the most derived (calling) contract when it derives
from the callee's declaring contract, otherwise the declaring contract
itself, or `none` for free functions. -/
def findScopeContract (p : Program) (callable : CallableId)
    (callingContract : Option ContractId) : Option ContractId :=
  match p.annotationContract callable with
  | some functionContract =>
    match callingContract with
    | some cc =>
      if p.derivesFrom cc functionContract then some cc else some functionContract
    | none => some functionContract
  | none => none

/-- `solidity::frontend::resolveModifierInvocation`: dynamic cast to a
modifier definition, then virtual or static lookup. -/
def resolveModifierInvocation (p : Program) (inv : ModifierInvocationData)
    (contract : ContractId) : Option CallableId :=
  match inv.referencedModifier with
  | some m =>
    match inv.requiredLookup with
    | .vvirtual => some (p.resolveVirtualModifier m contract)
    | .vstatic => some m
  | none => none

/-- Result of running a fueled loop: normal completion, a fatal
`solAssert` violation (the analysis aborts), or fuel exhaustion. -/
inductive RunResult (σ : Type) where
  | ok (s : σ) (visited : List NodeId)
  | aborted (msg : String)
  | fuelOut
deriving Repr

/-- Modelled from the spec: `solidity::util::BreadthFirstSearch`
(libsolutil/Algorithms.h, not under src/) — "run a breadth-first traversal
of its Flow Graph starting at entry, expanding a node's successors
according to this policy". The worklist is an ordered set (pop the least
element), a node is marked visited when popped, and a child is enqueued
only when not yet visited. The visitor threads a state `σ` and may abort
(modelling a failed `solAssert`). -/
def bfsAux (visit : σ → NodeId → Except String (σ × List NodeId)) :
    Nat → σ → List NodeId → List NodeId → RunResult σ
  | 0, _, _, _ => .fuelOut
  | _ + 1, s, [], visited => .ok s visited
  | fuel + 1, s, v :: rest, visited =>
    let visited1 := v :: visited
    match visit s v with
    | .error m => .aborted m
    | .ok (s1, children) =>
      let queue1 := children.foldl
        (fun q c => if c ∈ visited1 then q else insertEnc id c q) rest
      bfsAux visit fuel s1 queue1 visited1

/-- All node ids that can ever be enqueued by a traversal of the arena:
the exit lists of all nodes. -/
def allExits (nodes : List CFGNode) : List NodeId :=
  (nodes.map (fun n => n.exits)).flatten

/-- Mutable flag/dependency state threaded through one classification
traversal of `findRevertStates`: the three search flags and the `wakeUp`
dependency map (blocking key to the set of keys stalled on it). -/
structure CState where
  foundExit : Bool
  foundUnknown : Bool
  foundPlaceholder : Bool
  wakeUp : List (ContractCallableTuple × List ContractCallableTuple)
deriving DecidableEq, Repr

/-- Lookup in the `wakeUp` dependency map. -/
def wakeLookup (w : List (ContractCallableTuple × List ContractCallableTuple))
    (k : ContractCallableTuple) : List ContractCallableTuple :=
  match w.find? (fun kv => decide (kv.1 = k)) with
  | some kv => kv.2
  | none => []

/-- `wakeUp[callee].insert(item)`: insert `item` into the set of keys
woken by `callee`. -/
def wakeInsert (w : List (ContractCallableTuple × List ContractCallableTuple))
    (callee item : ContractCallableTuple) :
    List (ContractCallableTuple × List ContractCallableTuple) :=
  if w.any (fun kv => decide (kv.1 = callee)) then
    w.map (fun kv => if kv.1 = callee then (kv.1, insertEnc keyEnc item kv.2) else kv)
  else w ++ [(callee, [item])]

/-- The modifier resolution step of the classification visitor:
`resolveModifierInvocation(*_node->modifierInvocation, *item.contract)`.
Dereferencing a null `item.contract` (impossible for well-formed inputs,
since only contract callables carry modifier invocations) is modelled as
an abort. -/
def classifierResolveModifier (p : Program) (node : CFGNode)
    (contract : Option ContractId) : Except String (Option CallableId) :=
  match node.modifierInvocation with
  | none => .ok none
  | some inv =>
    match contract with
    | some c => .ok (resolveModifierInvocation p inv c)
    | none => .error "null contract dereference"

/-- `ASTNode::resolveFunctionCall(*_node->functionCall, item.contract)`,
performed only when the node carries a call-site tag. -/
def classifierResolveFunction (p : Program) (node : CFGNode)
    (contract : Option ContractId) : Option CallableId :=
  match node.functionCall with
  | some fc => p.resolveFunctionCall fc contract
  | none => none

/-- The body of the `BreadthFirstSearch` lambda of
`ControlFlowRevertPruner::findRevertStates`: record `foundExit` /
`foundPlaceholder` (asserting that a placeholder is never the exit node),
resolve a modifier-invocation or call-site tag, and — when the resolved
callee is implemented — branch on its current revert state; otherwise
expand the node's successors. Returns the updated flags/wake state and the
children to enqueue. -/
def classifierVisit (p : Program) (states : ContractCallableTuple → RevertState)
    (item : ContractCallableTuple) (flow : FunctionFlow) (cs : CState)
    (v : NodeId) : Except String (CState × List NodeId) :=
  let node := p.nodes.getD v default
  let cs1 := if v = flow.exit then { cs with foundExit := true } else cs
  if node.placeholderStatement ∧ v = flow.exit then
    .error "Placeholder cannot be an exit node!"
  else
    let cs2 := if node.placeholderStatement then { cs1 with foundPlaceholder := true } else cs1
    match classifierResolveModifier p node item.contract with
    | .error m => .error m
    | .ok modR =>
      let funR := classifierResolveFunction p node item.contract
      if modR.isSome ∧ funR.isSome then
        .error "Node can only have modifier or function."
      else
        let callableOpt := if node.functionCall.isSome then funR else modR
        let cond :=
          (match modR with | some m => p.isImplemented m | none => false) ||
          (match funR with | some f => p.isImplemented f | none => false)
        if cond then
          match callableOpt with
          | none => .error "null callable dereference"
          | some c =>
            let calledKey : ContractCallableTuple :=
              ⟨findScopeContract p c item.contract, c⟩
            match states calledKey with
            | .Unknown =>
              .ok ({ cs2 with foundUnknown := true,
                              wakeUp := wakeInsert cs2.wakeUp calledKey item }, [])
            | .AllPathsRevert => .ok (cs2, [])
            | .HasNonRevertingPath => .ok (cs2, node.exits)
            | .ModifierRevertPassthrough =>
              if p.isModifierDef c then .ok (cs2, node.exits)
              else .error "Invalid state for function flow."
        else .ok (cs2, node.exits)

/-- Fuel that always suffices for one breadth-first traversal: one more
than the number of distinct node ids that can ever sit in the worklist. -/
def bfsFuel (p : Program) (flow : FunctionFlow) : Nat :=
  (sortEnc id (flow.entry :: flow.revert :: allExits p.nodes)).length + 1

/-- One classification traversal of `findRevertStates` for key `item`,
starting from the flow's entry node with all flags clear and the current
`wakeUp` map. -/
def classifierBfs (p : Program) (states : ContractCallableTuple → RevertState)
    (wake : List (ContractCallableTuple × List ContractCallableTuple))
    (item : ContractCallableTuple) : RunResult CState :=
  let flow := p.flow item
  bfsAux (classifierVisit p states item flow) (bfsFuel p flow)
    ⟨false, false, false, wake⟩ [flow.entry] []

/-- The state of the `findRevertStates` worklist loop: `m_callables`,
`pendingFunctions` (a sorted key set) and the `wakeUp` map. -/
structure LoopState where
  states : ContractCallableTuple → RevertState
  pending : List ContractCallableTuple
  wakeUp : List (ContractCallableTuple × List ContractCallableTuple)

/-- The revert-state decision made after one traversal completes
(`findRevertStates`, the assignment to `m_callables[item]`). -/
def decideRevertState (foundExit foundPlaceholder foundUnknown : Bool)
    (old : RevertState) : RevertState :=
  if foundExit then
    if foundPlaceholder then .ModifierRevertPassthrough
    else .HasNonRevertingPath
  else if !foundUnknown then .AllPathsRevert
  else old

/-- One iteration of the `findRevertStates` worklist loop, given the
popped `item` and the rest of the pending set: skip already-settled keys,
otherwise run the traversal, decide the state, and on settlement wake
every still-unknown key stalled on `item`. -/
def classifierStep (p : Program) (s : LoopState) (item : ContractCallableTuple)
    (rest : List ContractCallableTuple) : RunResult LoopState :=
  if s.states item ≠ RevertState.Unknown then
    .ok { s with pending := rest } []
  else
    match classifierBfs p s.states s.wakeUp item with
    | .fuelOut => .fuelOut
    | .aborted m => .aborted m
    | .ok cst vis =>
      let newState :=
        decideRevertState cst.foundExit cst.foundPlaceholder cst.foundUnknown
          (s.states item)
      let states1 := fun k => if k = item then newState else s.states k
      if newState ≠ RevertState.Unknown then
        let woken := (wakeLookup cst.wakeUp item).filter
          (fun k => decide (states1 k = RevertState.Unknown))
        let pending1 := woken.foldl (fun q k => insertEnc keyEnc k q) rest
        let wake1 := cst.wakeUp.filter (fun kv => decide (kv.1 ≠ item))
        .ok ⟨states1, pending1, wake1⟩ vis
      else
        .ok ⟨states1, rest, cst.wakeUp⟩ vis

/-- The `while (!pendingFunctions.empty())` loop of `findRevertStates`,
popping the least pending key each iteration. -/
def findRevertStatesLoop (p : Program) : Nat → LoopState → RunResult LoopState
  | 0, _ => .fuelOut
  | fuel + 1, s =>
    match s.pending with
    | [] => .ok s []
    | item :: rest =>
      match classifierStep p s item rest with
      | .ok s1 _ => findRevertStatesLoop p fuel s1
      | .aborted m => .aborted m
      | .fuelOut => .fuelOut

/-- The sorted, duplicate-free key set of `m_callables` (a `std::map`
keyed by `ContractCallableTuple`). -/
def keysSorted (p : Program) : List ContractCallableTuple :=
  sortEnc keyEnc p.flowKeys

/-- Fuel that always suffices for the `findRevertStates` worklist loop
(proved below): with `N` registry keys, at most `(N+1)^2` iterations. -/
def classifierFuel (p : Program) : Nat :=
  ((keysSorted p).length + 1) * ((keysSorted p).length + 1)

/-- `ControlFlowRevertPruner::findRevertStates()`: initialize the pending
set with all registry keys and run the worklist loop to the fixed point. -/
def findRevertStates (p : Program) : RunResult LoopState :=
  findRevertStatesLoop p (classifierFuel p)
    ⟨fun _ => RevertState.Unknown, keysSorted p, []⟩

/-- Modelled from range-v3 (`ranges::remove(node->entries, _node)`, an
external library call whose return value the source discards): the
kept elements are shifted to the front, the container size is unchanged,
and the tail positions retain their previous (pointer) values — no erase
is performed. -/
def cppRemove (x : NodeId) (l : List NodeId) : List NodeId :=
  l.filter (fun y => decide (y ≠ x)) ++ l.drop (l.filter (fun y => decide (y ≠ x))).length

/-- Update the arena node at index `i` in place. -/
def setNode (nodes : List CFGNode) (i : NodeId) (f : CFGNode → CFGNode) :
    List CFGNode :=
  nodes.set i (f (nodes.getD i default))

/-- The body of the `BreadthFirstSearch` lambda of
`ControlFlowRevertPruner::modifyFunctionFlows`: at a call-site node whose
resolved callee is implemented and `Unknown` or `AllPathsRevert`, run
`ranges::remove` on each current successor's entry list, replace the exit
list by the flow's revert node, append the node to the revert node's entry
list, and stop expanding; otherwise expand successors unchanged. -/
def prunerVisit (p : Program) (states : ContractCallableTuple → RevertState)
    (contract : Option ContractId) (flow : FunctionFlow)
    (nodes : List CFGNode) (v : NodeId) :
    Except String (List CFGNode × List NodeId) :=
  let node := nodes.getD v default
  match node.functionCall with
  | some fc =>
    match p.resolveFunctionCall fc contract with
    | some rf =>
      if p.isImplemented rf then
        match states ⟨findScopeContract p rf contract, rf⟩ with
        | .Unknown | .AllPathsRevert =>
          let nodes1 := node.exits.foldl
            (fun ns e => setNode ns e (fun en => { en with entries := cppRemove v en.entries }))
            nodes
          let nodes2 := setNode nodes1 v (fun n => { n with exits := [flow.revert] })
          let nodes3 := setNode nodes2 flow.revert
            (fun n => { n with entries := n.entries ++ [v] })
          .ok (nodes3, [])
        | .HasNonRevertingPath | .ModifierRevertPassthrough => .ok (nodes, node.exits)
      else .ok (nodes, node.exits)
    | none => .ok (nodes, node.exits)
  | none => .ok (nodes, node.exits)

/-- Fuel for one pruning traversal: the arena's exit lists can only ever
be replaced by `[flow.revert]`, so this bound also covers the mutated
graph. -/
def prunerBfsFuel (nodes : List CFGNode) (flow : FunctionFlow) : Nat :=
  (sortEnc id (flow.entry :: flow.revert :: allExits nodes)).length + 1

/-- The per-key traversals of `modifyFunctionFlows`, iterating the sorted
registry keys and threading the mutated arena. -/
def pruneKeys (p : Program) (states : ContractCallableTuple → RevertState) :
    List ContractCallableTuple → List CFGNode → Option (List CFGNode)
  | [], nodes => some nodes
  | k :: ks, nodes =>
    let flow := p.flow k
    match bfsAux (prunerVisit p states k.contract flow) (prunerBfsFuel nodes flow)
        nodes [flow.entry] [] with
    | .ok nodes1 _ => pruneKeys p states ks nodes1
    | _ => none

/-- `ControlFlowRevertPruner::modifyFunctionFlows()`. -/
def modifyFunctionFlows (p : Program) (states : ContractCallableTuple → RevertState)
    (nodes : List CFGNode) : Option (List CFGNode) :=
  pruneKeys p states (keysSorted p) nodes

/-- `ControlFlowRevertPruner::run()`: initialize every key to `Unknown`,
classify, then rewrite the flows. -/
def revertPrunerRun (p : Program) :
    RunResult ((ContractCallableTuple → RevertState) × List CFGNode) :=
  match findRevertStates p with
  | .ok s _ =>
    match modifyFunctionFlows p s.states p.nodes with
    | some nodes1 => .ok (s.states, nodes1) []
    | none => .fuelOut
  | .aborted m => .aborted m
  | .fuelOut => .fuelOut

/-- Whether a run result completed normally. -/
def RunResult.isOk : RunResult σ → Bool
  | .ok _ _ => true
  | _ => false

/-- The settled states of a completed classification (dummy all-`Unknown`
map when the run did not complete). -/
def runStates (r : RunResult LoopState) : ContractCallableTuple → RevertState :=
  match r with
  | .ok s _ => s.states
  | _ => fun _ => RevertState.Unknown

/-- The arena of a completed full run (`none` when it did not complete). -/
def runNodes (r : RunResult ((ContractCallableTuple → RevertState) × List CFGNode)) :
    Option (List CFGNode) :=
  match r with
  | .ok sn _ => some sn.2
  | _ => none

/-- The settled state of one key after a completed full run. -/
def runStateOf (r : RunResult ((ContractCallableTuple → RevertState) × List CFGNode))
    (k : ContractCallableTuple) : Option RevertState :=
  match r with
  | .ok sn _ => some (sn.1 k)
  | _ => none

/-- The AST facts about one contract definition that `CFG::visit` reads:
its linearized base-contract list (most-derived first) and the functions
and modifiers directly defined in it. -/
structure ContractInfo where
  linearizedBaseContracts : List ContractId
  definedFunctions : List CallableId
  functionModifiers : List CallableId

/-- `m_functionControlFlow[key] = flow`: `std::map` assignment — overwrite
the existing entry or append a new one. Flow values are modelled as fresh
numeric handles (`ControlFlowBuilder::createFunctionFlow` results). -/
def mapSet (m : List (ContractCallableTuple × Nat)) (k : ContractCallableTuple)
    (v : Nat) : List (ContractCallableTuple × Nat) :=
  if m.any (fun kv => decide (kv.1 = k)) then
    m.map (fun kv => if kv.1 = k then (kv.1, v) else kv)
  else m ++ [(k, v)]

/-- Registry-construction state: the flow map and the counter generating
fresh flow handles. -/
structure RegState where
  flows : List (ContractCallableTuple × Nat)
  fresh : Nat

/-- The inner loop of `CFG::visit(ContractDefinition)` over one list of
callables: register each implemented one under the key `(some c, f)`. -/
def regAddAll (c : ContractId) (impl : CallableId → Bool) (st : RegState)
    (fs : List CallableId) : RegState :=
  fs.foldl
    (fun st f =>
      if impl f then ⟨mapSet st.flows ⟨some c, f⟩ st.fresh, st.fresh + 1⟩ else st)
    st

/-- `CFG::visit(ContractDefinition const& _contract)`: for each contract
in the visited contract's linearized base list, register each implemented
function and each implemented modifier directly defined there, keyed by
the visited contract `_contract` itself. -/
def visitContract (info : ContractId → ContractInfo) (impl : CallableId → Bool)
    (c : ContractId) (st : RegState) : RegState :=
  (info c).linearizedBaseContracts.foldl
    (fun st1 base =>
      regAddAll c impl (regAddAll c impl st1 (info base).definedFunctions)
        (info base).functionModifiers)
    st

/-- `CFG::visit(FunctionDefinition const& _function)`: register an
implemented free function keyed `(nullptr, function)`. -/
def visitFreeFunction (impl free : CallableId → Bool) (st : RegState)
    (f : CallableId) : RegState :=
  if impl f && free f then ⟨mapSet st.flows ⟨none, f⟩ st.fresh, st.fresh + 1⟩ else st

/-- A source unit: the contracts and free functions the AST walk visits. -/
structure SourceUnit where
  contracts : List ContractId
  freeFunctions : List CallableId

/-- The single AST walk performed by `CFG::constructFlow`
(`_astRoot.accept(*this)`): visit every free function and every contract. -/
def cfgWalk (info : ContractId → ContractInfo) (impl free : CallableId → Bool)
    (u : SourceUnit) : RegState :=
  let st := u.freeFunctions.foldl (visitFreeFunction impl free) ⟨[], 0⟩
  u.contracts.foldl (fun s c => visitContract info impl c s) st

/-- Diagnostic severity in the shared error-reporter sink. -/
inductive Severity where
  | fatal
  | warningOnly
  | infoOnly
deriving DecidableEq, Repr

/-- Modelled from the spec: `langutil::Error::containsErrors` (not under
src/) — whether the shared diagnostic sink holds any error-severity
diagnostic. -/
def containsErrors (errs : List Severity) : Bool :=
  errs.any (fun e => decide (e = Severity.fatal))

/-- `CFG::constructFlow(ASTNode const& _astRoot)`: perform the AST walk,
then report success iff the shared sink holds no errors. The walk itself
never touches the sink, so the sink is returned unchanged. -/
def constructFlow (info : ContractId → ContractInfo) (impl free : CallableId → Bool)
    (u : SourceUnit) (errs : List Severity) : RegState × List Severity × Bool :=
  (cfgWalk info impl free u, errs, !containsErrors errs)

/-- The key set of a registry state. -/
def regKeys (st : RegState) : List ContractCallableTuple :=
  st.flows.map (fun kv => kv.1)

/-- Key of the free function with id 0 in the example programs. -/
def exKey0 : ContractCallableTuple := ⟨none, 0⟩

/-- Key of the free function with id 1 in the example programs. -/
def exKey1 : ContractCallableTuple := ⟨none, 1⟩

/-- Example program `exCallRevert`: free function `f` (id 0) whose flow
goes straight to its revert node (nodes 0–2, exit 1 unreachable), and free
function `g` (id 1) whose flow is entry 3 → call node 4 (calling `f`) →
exit 5, with revert node 6. -/
def exCallRevert : Program where
  nodes :=
    [ { exits := [2] },
      {},
      { entries := [0] },
      { exits := [4] },
      { entries := [3], exits := [5], functionCall := some 0 },
      { entries := [4] },
      {} ]
  flowKeys := [exKey0, exKey1]
  flow := fun k => if k.callable = 0 then ⟨0, 1, 2⟩ else ⟨3, 5, 6⟩
  isModifierDef := fun _ => false
  isImplemented := fun _ => true
  annotationContract := fun _ => none
  derivesFrom := fun _ _ => false
  resolveVirtualModifier := fun m _ => m
  resolveFunctionCall := fun fc _ => if fc = 0 then some 0 else none

/-- Example program `exMutual`: free functions `a` (id 0, nodes 0–3) and
`b` (id 1, nodes 4–7) that call only each other; each exit is reachable
only through the call to the other function. -/
def exMutual : Program where
  nodes :=
    [ { exits := [1] },
      { entries := [0], exits := [2], functionCall := some 10 },
      { entries := [1] },
      {},
      { exits := [5] },
      { entries := [4], exits := [6], functionCall := some 11 },
      { entries := [5] },
      {} ]
  flowKeys := [exKey0, exKey1]
  flow := fun k => if k.callable = 0 then ⟨0, 2, 3⟩ else ⟨4, 6, 7⟩
  isModifierDef := fun _ => false
  isImplemented := fun _ => true
  annotationContract := fun _ => none
  derivesFrom := fun _ _ => false
  resolveVirtualModifier := fun m _ => m
  resolveFunctionCall := fun fc _ =>
    if fc = 10 then some 1 else if fc = 11 then some 0 else none

/-- Example program `exPlaceholderExit`: a malformed flow whose entry node
carries the placeholder tag and is also the designated exit node. -/
def exPlaceholderExit : Program where
  nodes := [ { placeholderStatement := true } ]
  flowKeys := [exKey0]
  flow := fun _ => ⟨0, 0, 1⟩
  isModifierDef := fun _ => true
  isImplemented := fun _ => true
  annotationContract := fun _ => none
  derivesFrom := fun _ _ => false
  resolveVirtualModifier := fun m _ => m
  resolveFunctionCall := fun _ _ => none

/-- Example program `exUnimplemented`: free function `g` (id 1, nodes
0–3) whose node 1 calls function id 5, which resolves but is not
implemented. -/
def exUnimplemented : Program where
  nodes :=
    [ { exits := [1] },
      { entries := [0], exits := [2], functionCall := some 0 },
      { entries := [1] },
      {} ]
  flowKeys := [exKey1]
  flow := fun _ => ⟨0, 2, 3⟩
  isModifierDef := fun _ => false
  isImplemented := fun c => c ≠ 5
  annotationContract := fun _ => none
  derivesFrom := fun _ _ => false
  resolveVirtualModifier := fun m _ => m
  resolveFunctionCall := fun fc _ => if fc = 0 then some 5 else none

/-- The AST facts of the registry example: contract 0 defines function 0;
contract 1 inherits from contract 0 (linearization `[1, 0]`) and defines
nothing itself. -/
def exInfo : ContractId → ContractInfo := fun c =>
  if c = 1 then ⟨[1, 0], [], []⟩ else ⟨[0], [0], []⟩

/-- The registry example's source unit: contracts 0 and 1, no free
functions. -/
def exUnit : SourceUnit := ⟨[0, 1], []⟩

/-- C2: after the full pruner run on `exCallRevert`, the call-site node 4
(whose callee always reverts) has exactly one outgoing edge, to the
caller's revert node 6 — but, because the source discards the result of
`ranges::remove` and never erases, node 4 STILL appears in the entry list
of its former successor node 5. The claim's final conjunct is false on
the code: this theorem evaluates the code at the failing input. -/
theorem pruned_call_site_remains_in_successor_entries :
    (revertPrunerRun exCallRevert).isOk = true ∧
    (runNodes (revertPrunerRun exCallRevert)).map
      (fun ns => (ns.getD 4 default).exits) = some [6] ∧
    (runNodes (revertPrunerRun exCallRevert)).map
      (fun ns => decide (4 ∈ (ns.getD 5 default).entries)) = some true := by
  refine ⟨by decide, by decide, by decide⟩

/-- C3 counterexample: in the mutual-recursion program `exMutual`, the two
keys do NOT settle to `AllPathsRevert` after classification finishes —
they remain `Unknown` (the residual-cycle fallback). -/
theorem mutual_recursion_not_all_paths_revert_cx :
    ¬(runStates (findRevertStates exMutual) exKey0 = RevertState.AllPathsRevert ∧
      runStates (findRevertStates exMutual) exKey1 = RevertState.AllPathsRevert) := by
  decide

/-- C3 amended: in `exMutual` both keys remain `Unknown` after
classification finishes, and the pruner — which treats residual `Unknown`
as reverting — subsequently redirects each call site (nodes 1 and 5) to
its caller's revert-exit node (3 and 7 respectively). -/
theorem mutual_recursion_unknown_and_pruned :
    (findRevertStates exMutual).isOk = true ∧
    runStates (findRevertStates exMutual) exKey0 = RevertState.Unknown ∧
    runStates (findRevertStates exMutual) exKey1 = RevertState.Unknown ∧
    (runNodes (revertPrunerRun exMutual)).map
      (fun ns => ((ns.getD 1 default).exits, (ns.getD 5 default).exits)) =
      some ([3], [7]) := by
  refine ⟨by decide, by decide, by decide, by decide⟩

/-- The result of pruning `exCallRevert` once, after classification. -/
def pruneOnce : Option (List CFGNode) :=
  modifyFunctionFlows exCallRevert (runStates (findRevertStates exCallRevert))
    exCallRevert.nodes

/-- The result of pruning `exCallRevert` twice with the same settled
states. -/
def pruneTwice : Option (List CFGNode) :=
  pruneOnce.bind
    (modifyFunctionFlows exCallRevert (runStates (findRevertStates exCallRevert)))

/-- C4: the pruner is NOT idempotent. On `exCallRevert`, the first run
leaves the revert node 6 with entry list `[4]`; a second run re-runs the
rewrite at node 4 (its callee's state is unchanged), `ranges::remove`
does not erase node 4 from the revert node's entries, and the subsequent
`push_back` appends it again, yielding `[4, 4]`: the two graphs differ. -/
theorem pruner_not_idempotent :
    pruneOnce.map (fun ns => (ns.getD 6 default).entries) = some [4] ∧
    pruneTwice.map (fun ns => (ns.getD 6 default).entries) = some [4, 4] ∧
    pruneOnce ≠ pruneTwice := by
  refine ⟨by decide, by decide, by decide⟩

/-- C6 counterexample: visiting contract 1 (which inherits function 0
from contract 0 without overriding it) registers the flow under the key
`(contract 1, function 0)` — the most-derived visited contract — and NOT
under `(contract 0, function 0)`, the defining contract; and after the
whole walk the inherited function is reachable through the key of the
deriving contract 1, not only its definer's. -/
theorem registry_key_uses_visited_contract_cx :
    ContractCallableTuple.mk (some 1) 0 ∈
      regKeys (visitContract exInfo (fun _ => true) 1 ⟨[], 0⟩) ∧
    ContractCallableTuple.mk (some 0) 0 ∉
      regKeys (visitContract exInfo (fun _ => true) 1 ⟨[], 0⟩) ∧
    ContractCallableTuple.mk (some 1) 0 ∈
      regKeys (cfgWalk exInfo (fun _ => true) (fun _ => false) exUnit) := by
  refine ⟨by decide, by decide, by decide⟩

/-- C10: `constructFlow` returns failure exactly when the shared
diagnostic sink holds error-severity diagnostics, and it returns the sink
unchanged — the graph-construction walk emits no diagnostics of its own. -/
theorem constructFlow_failure_iff_errors (info : ContractId → ContractInfo)
    (impl free : CallableId → Bool) (u : SourceUnit) (errs : List Severity) :
    ((constructFlow info impl free u errs).2.2 = false ↔
      containsErrors errs = true) ∧
    (constructFlow info impl free u errs).2.1 = errs := by
  refine ⟨?_, rfl⟩
  simp [constructFlow]

/-- C8: a node carrying the placeholder tag that coincides with the
flow's exit node makes the classification visitor fail its `solAssert`,
and the surrounding breadth-first traversal aborts with that fatal
internal-consistency violation instead of continuing. -/
theorem placeholder_exit_aborts (p : Program)
    (states : ContractCallableTuple → RevertState) (item : ContractCallableTuple)
    (flow : FunctionFlow) (cs : CState) (v : NodeId) (fuel : Nat)
    (rest visited : List NodeId)
    (hpl : (p.nodes.getD v default).placeholderStatement = true)
    (hex : v = flow.exit) :
    classifierVisit p states item flow cs v =
      Except.error "Placeholder cannot be an exit node!" ∧
    bfsAux (classifierVisit p states item flow) (fuel + 1) cs (v :: rest) visited =
      RunResult.aborted "Placeholder cannot be an exit node!" := by
  have h1 : classifierVisit p states item flow cs v =
      Except.error "Placeholder cannot be an exit node!" := by
    subst hex
    simp only [classifierVisit]
    rw [if_pos ⟨hpl, trivial⟩]
  exact ⟨h1, by simp [bfsAux, h1]⟩

/-- C8 witness: the malformed program `exPlaceholderExit` exhibits the
abort at its entry node, which is both a placeholder and the exit. -/
theorem placeholder_exit_aborts_witness :
    (exPlaceholderExit.nodes.getD 0 default).placeholderStatement = true ∧
    (classifierVisit exPlaceholderExit (fun _ => RevertState.Unknown) exKey0
        ⟨0, 0, 1⟩ ⟨false, false, false, []⟩ 0 =
      Except.error "Placeholder cannot be an exit node!" ∧
    bfsAux (classifierVisit exPlaceholderExit (fun _ => RevertState.Unknown)
        exKey0 ⟨0, 0, 1⟩) 1 ⟨false, false, false, []⟩ [0] [] =
      RunResult.aborted "Placeholder cannot be an exit node!") :=
  ⟨by decide,
   placeholder_exit_aborts exPlaceholderExit (fun _ => RevertState.Unknown)
     exKey0 ⟨0, 0, 1⟩ ⟨false, false, false, []⟩ 0 0 [] [] (by decide) rfl⟩


/-- The update of the search flags performed at every visited node before
any call handling: record reaching the exit node and seeing a placeholder. -/
def exitPlaceholderFlags (node : CFGNode) (flow : FunctionFlow) (v : NodeId)
    (cs : CState) : CState :=
  let cs1 := if v = flow.exit then { cs with foundExit := true } else cs
  if node.placeholderStatement then { cs1 with foundPlaceholder := true } else cs1

/-- The exit/placeholder flag update never touches `foundUnknown`. -/
theorem exitPlaceholderFlags_foundUnknown (node : CFGNode) (flow : FunctionFlow)
    (v : NodeId) (cs : CState) :
    (exitPlaceholderFlags node flow v cs).foundUnknown = cs.foundUnknown := by
  unfold exitPlaceholderFlags
  by_cases hp : node.placeholderStatement = true <;>
    by_cases he : v = flow.exit <;> simp [hp, he]

/-- The exit/placeholder flag update never touches the wake map. -/
theorem exitPlaceholderFlags_wakeUp (node : CFGNode) (flow : FunctionFlow)
    (v : NodeId) (cs : CState) :
    (exitPlaceholderFlags node flow v cs).wakeUp = cs.wakeUp := by
  unfold exitPlaceholderFlags
  by_cases hp : node.placeholderStatement = true <;>
    by_cases he : v = flow.exit <;> simp [hp, he]

/-- Helper for C9: when the node's resolved callee (modifier or function)
is not implemented, the classification visitor ignores the revert-state
map entirely and expands the node's successors. -/
theorem classifierVisit_unimplemented (p : Program)
    (states : ContractCallableTuple → RevertState) (item : ContractCallableTuple)
    (flow : FunctionFlow) (cs : CState) (v : NodeId) (modR : Option CallableId)
    (hph : ¬((p.nodes.getD v default).placeholderStatement = true ∧ v = flow.exit))
    (hm : classifierResolveModifier p (p.nodes.getD v default) item.contract =
      Except.ok modR)
    (himplm : ∀ m, modR = some m → p.isImplemented m = false)
    (himplf : ∀ f, classifierResolveFunction p (p.nodes.getD v default) item.contract =
      some f → p.isImplemented f = false)
    (hnb : ¬(modR.isSome = true ∧
      (classifierResolveFunction p (p.nodes.getD v default) item.contract).isSome = true)) :
    classifierVisit p states item flow cs v =
      Except.ok (exitPlaceholderFlags (p.nodes.getD v default) flow v cs,
        (p.nodes.getD v default).exits) := by
  simp only [classifierVisit]
  rw [if_neg hph, hm]
  dsimp only
  rw [if_neg hnb]
  cases hfr : classifierResolveFunction p (p.nodes.getD v default) item.contract with
  | none =>
    cases hmr : modR with
    | none => rfl
    | some m =>
      dsimp only
      rw [himplm m hmr]
      rfl
  | some f =>
    have hif : p.isImplemented f = false := himplf f hfr
    cases hmr : modR with
    | none =>
      dsimp only
      rw [hif]
      rfl
    | some m =>
      dsimp only
      rw [himplm m hmr, hif]
      rfl

/-- C9: a call-site or modifier-invocation node whose resolved callee is
not implemented is expanded normally by both passes: the classification
visitor adds all successors, records no `foundUnknown`, registers no wake
dependency, and its outcome does not depend on the revert-state map at
all; and the pruning visitor leaves the arena untouched and expands all
successors. -/
theorem unimplemented_callee_expands_normally (p : Program)
    (states1 states2 : ContractCallableTuple → RevertState)
    (item : ContractCallableTuple) (flow : FunctionFlow) (cs : CState)
    (v : NodeId) (modR : Option CallableId)
    (_htag : (p.nodes.getD v default).modifierInvocation.isSome = true ∨
      (p.nodes.getD v default).functionCall.isSome = true)
    (hph : ¬((p.nodes.getD v default).placeholderStatement = true ∧ v = flow.exit))
    (hm : classifierResolveModifier p (p.nodes.getD v default) item.contract =
      Except.ok modR)
    (himplm : ∀ m, modR = some m → p.isImplemented m = false)
    (himplf : ∀ f, classifierResolveFunction p (p.nodes.getD v default) item.contract =
      some f → p.isImplemented f = false)
    (hnb : ¬(modR.isSome = true ∧
      (classifierResolveFunction p (p.nodes.getD v default) item.contract).isSome = true)) :
    (∃ cs2, classifierVisit p states1 item flow cs v =
        Except.ok (cs2, (p.nodes.getD v default).exits) ∧
      cs2.foundUnknown = cs.foundUnknown ∧ cs2.wakeUp = cs.wakeUp) ∧
    classifierVisit p states2 item flow cs v = classifierVisit p states1 item flow cs v ∧
    prunerVisit p states1 item.contract flow p.nodes v =
      Except.ok (p.nodes, (p.nodes.getD v default).exits) := by
  have h1 := classifierVisit_unimplemented p states1 item flow cs v modR hph hm himplm himplf hnb
  have h2 := classifierVisit_unimplemented p states2 item flow cs v modR hph hm himplm himplf hnb
  refine ⟨⟨exitPlaceholderFlags (p.nodes.getD v default) flow v cs, h1,
    exitPlaceholderFlags_foundUnknown _ _ _ _, exitPlaceholderFlags_wakeUp _ _ _ _⟩,
    by rw [h1, h2], ?_⟩
  simp only [prunerVisit]
  cases hfc : (p.nodes.getD v default).functionCall with
  | none => rfl
  | some fc =>
    have hfr0 : classifierResolveFunction p (p.nodes.getD v default) item.contract =
        p.resolveFunctionCall fc item.contract := by
      simp only [classifierResolveFunction, hfc]
    cases hrf : p.resolveFunctionCall fc item.contract with
    | none =>
      dsimp only
      rw [hrf]
    | some rf =>
      have himp : p.isImplemented rf = false := by
        apply himplf
        rw [hfr0, hrf]
      dsimp only
      rw [hrf]
      dsimp only
      rw [himp]
      rfl

/-- C9 witness: in `exUnimplemented`, node 1 calls function 5, which
resolves but has no body; both visitors expand it normally and the
classification outcome is independent of the revert-state map. -/
theorem unimplemented_callee_expands_normally_witness :
    (∃ cs2, classifierVisit exUnimplemented (fun _ => RevertState.Unknown) exKey1
        ⟨0, 2, 3⟩ ⟨false, false, false, []⟩ 1 = Except.ok (cs2, [2]) ∧
      cs2.foundUnknown = false ∧ cs2.wakeUp = []) ∧
    classifierVisit exUnimplemented (fun _ => RevertState.AllPathsRevert) exKey1
        ⟨0, 2, 3⟩ ⟨false, false, false, []⟩ 1 =
      classifierVisit exUnimplemented (fun _ => RevertState.Unknown) exKey1
        ⟨0, 2, 3⟩ ⟨false, false, false, []⟩ 1 ∧
    prunerVisit exUnimplemented (fun _ => RevertState.Unknown) none ⟨0, 2, 3⟩
        exUnimplemented.nodes 1 =
      Except.ok (exUnimplemented.nodes, [2]) :=
  unimplemented_callee_expands_normally exUnimplemented
    (fun _ => RevertState.Unknown) (fun _ => RevertState.AllPathsRevert)
    exKey1 ⟨0, 2, 3⟩ ⟨false, false, false, []⟩ 1 none
    (Or.inr (by decide))
    (by decide)
    rfl
    (fun m h => Option.noConfusion h)
    (by
      intro f h
      have h2 : (some 5 : Option CallableId) = some f := h
      injection h2 with h3
      subst h3
      decide)
    (by decide)

/-- The settled state of key `k` after a worklist step that completed
normally. -/
def stepStateOf (r : RunResult LoopState) (k : ContractCallableTuple) :
    Option RevertState :=
  match r with
  | .ok s _ => some (s.states k)
  | _ => none

/-- Whether key `k` is pending after a worklist step that completed
normally. -/
def stepPendingHas (r : RunResult LoopState) (k : ContractCallableTuple) : Bool :=
  match r with
  | .ok s _ => decide (k ∈ s.pending)
  | _ => false

/-- C1: one worklist iteration for a still-unknown key whose traversal
completes decides the key's revert state exactly by the four-case table:
exit and placeholder found gives `ModifierRevertPassthrough`; exit without
placeholder gives `HasNonRevertingPath`; neither exit nor unknown gives
`AllPathsRevert`; unknown without exit leaves the key `Unknown` and the
key is not re-enqueued by this step. -/
theorem classifier_decides_revert_state (p : Program) (s : LoopState)
    (item : ContractCallableTuple) (rest : List ContractCallableTuple)
    (cst : CState) (vis : List NodeId)
    (h1 : s.states item = RevertState.Unknown)
    (h2 : classifierBfs p s.states s.wakeUp item = RunResult.ok cst vis) :
    (classifierStep p s item rest).isOk = true ∧
    (cst.foundExit = true → cst.foundPlaceholder = true →
      stepStateOf (classifierStep p s item rest) item =
        some RevertState.ModifierRevertPassthrough) ∧
    (cst.foundExit = true → cst.foundPlaceholder = false →
      stepStateOf (classifierStep p s item rest) item =
        some RevertState.HasNonRevertingPath) ∧
    (cst.foundExit = false → cst.foundUnknown = false →
      stepStateOf (classifierStep p s item rest) item =
        some RevertState.AllPathsRevert) ∧
    (cst.foundExit = false → cst.foundUnknown = true →
      stepStateOf (classifierStep p s item rest) item = some RevertState.Unknown ∧
      (item ∉ rest → stepPendingHas (classifierStep p s item rest) item = false)) := by
  have hstep : classifierStep p s item rest =
      (match classifierBfs p s.states s.wakeUp item with
      | .fuelOut => RunResult.fuelOut
      | .aborted m => RunResult.aborted m
      | .ok cst vis =>
        let newState :=
          decideRevertState cst.foundExit cst.foundPlaceholder cst.foundUnknown
            (s.states item)
        let states1 := fun k => if k = item then newState else s.states k
        if newState ≠ RevertState.Unknown then
          let woken := (wakeLookup cst.wakeUp item).filter
            (fun k => decide (states1 k = RevertState.Unknown))
          let pending1 := woken.foldl (fun q k => insertEnc keyEnc k q) rest
          let wake1 := cst.wakeUp.filter (fun kv => decide (kv.1 ≠ item))
          RunResult.ok ⟨states1, pending1, wake1⟩ vis
        else
          RunResult.ok ⟨states1, rest, cst.wakeUp⟩ vis) := by
    simp only [classifierStep, h1]
    rfl
  rw [hstep, h2]
  dsimp only
  refine ⟨?_, ?_, ?_, ?_, ?_⟩
  · by_cases hn : decideRevertState cst.foundExit cst.foundPlaceholder
        cst.foundUnknown (s.states item) = RevertState.Unknown <;>
      simp [hn, RunResult.isOk]
  · intro hfe hfp
    simp [stepStateOf, decideRevertState, hfe, hfp]
  · intro hfe hfp
    simp [stepStateOf, decideRevertState, hfe, hfp]
  · intro hfe hfu
    simp [stepStateOf, decideRevertState, hfe, hfu]
  · intro hfe hfu
    constructor
    · simp [stepStateOf, decideRevertState, hfe, hfu, h1]
    · intro hnr
      simp [stepPendingHas, decideRevertState, hfe, hfu, h1, hnr]

/-- C1 witness: on `exMutual`, processing key `a` first finds its callee
unknown and no exit, so the step leaves `a` `Unknown` and does not
re-enqueue it. -/
theorem classifier_decides_revert_state_witness :
    stepStateOf (classifierStep exMutual
        ⟨fun _ => RevertState.Unknown, [exKey0, exKey1], []⟩ exKey0 [exKey1])
      exKey0 = some RevertState.Unknown ∧
    stepPendingHas (classifierStep exMutual
        ⟨fun _ => RevertState.Unknown, [exKey0, exKey1], []⟩ exKey0 [exKey1])
      exKey0 = false :=
  have h := classifier_decides_revert_state exMutual
    ⟨fun _ => RevertState.Unknown, [exKey0, exKey1], []⟩ exKey0 [exKey1]
    ⟨false, true, false, [(exKey1, [exKey0])]⟩ [1, 0] rfl rfl
  have h4 := h.2.2.2.2 rfl rfl
  ⟨h4.1, h4.2 (by decide)⟩

/-- One worklist iteration never changes the state of a key that has
already settled away from `Unknown` (it only ever writes the popped key,
and only when that key is still `Unknown`). -/
theorem classifierStep_preserves_settled (p : Program) (s : LoopState)
    (item : ContractCallableTuple) (rest : List ContractCallableTuple)
    (k : ContractCallableTuple) (s1 : LoopState) (vis : List NodeId)
    (hk : s.states k ≠ RevertState.Unknown)
    (h : classifierStep p s item rest = RunResult.ok s1 vis) :
    s1.states k = s.states k := by
  by_cases hit : s.states item = RevertState.Unknown
  · have hki : k ≠ item := by
      intro he
      rw [he, hit] at hk
      exact hk rfl
    simp only [classifierStep, hit, ne_eq, not_true_eq_false, if_false, reduceIte] at h
    cases hbfs : classifierBfs p s.states s.wakeUp item with
    | fuelOut => rw [hbfs] at h; cases h
    | aborted m => rw [hbfs] at h; cases h
    | ok cst vis2 =>
      rw [hbfs] at h
      dsimp only at h
      split at h <;> cases h <;> simp [hki]
  · rw [classifierStep, if_pos hit] at h
    cases h
    rfl

/-- C5: monotonic settlement — across any number of iterations of the
`findRevertStates` worklist loop, once a key's revert state has left
`Unknown` it is never reassigned a different value. -/
theorem revert_state_monotonic (p : Program) :
    ∀ (fuel : Nat) (s : LoopState) (k : ContractCallableTuple),
      s.states k ≠ RevertState.Unknown →
      (findRevertStatesLoop p fuel s).isOk = true →
      runStates (findRevertStatesLoop p fuel s) k = s.states k := by
  intro fuel
  induction fuel with
  | zero =>
    intro s k hk hok
    simp [findRevertStatesLoop, RunResult.isOk] at hok
  | succ n ih =>
    intro s k hk hok
    cases hp : s.pending with
    | nil =>
      have hloop : findRevertStatesLoop p (n + 1) s = RunResult.ok s [] := by
        rw [findRevertStatesLoop, hp]
      rw [hloop]
      rfl
    | cons item rest =>
      have hloop : findRevertStatesLoop p (n + 1) s =
          (match classifierStep p s item rest with
          | RunResult.ok s1 _ => findRevertStatesLoop p n s1
          | RunResult.aborted m => RunResult.aborted m
          | RunResult.fuelOut => RunResult.fuelOut) := by
        rw [findRevertStatesLoop, hp]
      cases hstep : classifierStep p s item rest with
      | ok s1 vis =>
        have hloop1 : findRevertStatesLoop p (n + 1) s = findRevertStatesLoop p n s1 := by
          rw [hloop, hstep]
        have hk1 : s1.states k = s.states k :=
          classifierStep_preserves_settled p s item rest k s1 vis hk hstep
        have hk1ne : s1.states k ≠ RevertState.Unknown := by
          rw [hk1]; exact hk
        have hok1 : (findRevertStatesLoop p n s1).isOk = true := by
          rw [hloop1] at hok; exact hok
        rw [hloop1, ih s1 k hk1ne hok1, hk1]
      | aborted m =>
        rw [hloop, hstep] at hok
        cases hok
      | fuelOut =>
        rw [hloop, hstep] at hok
        cases hok

/-- The fixed mid-run loop state used by the monotonicity witness: key
`exKey0` has already settled to `AllPathsRevert`, key `exKey1` is still
pending. -/
def exMidState : LoopState :=
  ⟨fun k => if k = exKey0 then RevertState.AllPathsRevert else RevertState.Unknown,
    [exKey1], []⟩

/-- C5 witness: running the loop on from `exMidState` completes and leaves
the already-settled key `exKey0` at `AllPathsRevert`. -/
theorem revert_state_monotonic_witness :
    runStates (findRevertStatesLoop exCallRevert 3 exMidState) exKey0 =
      exMidState.states exKey0 :=
  revert_state_monotonic exCallRevert 3 exMidState exKey0 (by decide) (by decide)

/-- The key set of the flow map, as a list. -/
def flowMapKeys (m : List (ContractCallableTuple × Nat)) : List ContractCallableTuple :=
  m.map (fun kv => kv.1)

/-- `std::map` assignment never removes keys: the key set after `mapSet`
is the old key set plus the assigned key. -/
theorem mem_flowMapKeys_mapSet (m : List (ContractCallableTuple × Nat))
    (k x : ContractCallableTuple) (v : Nat) :
    x ∈ flowMapKeys (mapSet m k v) ↔ x ∈ flowMapKeys m ∨ x = k := by
  unfold mapSet
  by_cases hany : m.any (fun kv => decide (kv.1 = k)) = true
  · rw [if_pos hany]
    have hkeys : flowMapKeys (m.map (fun kv => if kv.1 = k then (kv.1, v) else kv)) =
        flowMapKeys m := by
      unfold flowMapKeys
      rw [List.map_map]
      apply List.map_congr_left
      intro kv _
      by_cases hk : kv.1 = k <;> simp [hk]
    rw [hkeys]
    have hkm : k ∈ flowMapKeys m := by
      rw [List.any_eq_true] at hany
      obtain ⟨kv, hkv, hd⟩ := hany
      rw [decide_eq_true_eq] at hd
      exact hd ▸ List.mem_map_of_mem (fun kv => kv.1) hkv
    constructor
    · exact Or.inl
    · rintro (h | rfl)
      · exact h
      · exact hkm
  · rw [if_neg hany]
    unfold flowMapKeys
    simp

/-- Key-set characterization of the inner registration loop: it adds
exactly the keys `(some c, f)` for the implemented callables `f` of the
list. -/
theorem mem_regKeys_regAddAll (c : ContractId) (impl : CallableId → Bool)
    (fs : List CallableId) (st : RegState) (x : ContractCallableTuple) :
    x ∈ regKeys (regAddAll c impl st fs) ↔
      x ∈ regKeys st ∨ ∃ f, f ∈ fs ∧ impl f = true ∧ x = ⟨some c, f⟩ := by
  induction fs generalizing st with
  | nil => simp [regAddAll]
  | cons f fs ih =>
    have hstep : regAddAll c impl st (f :: fs) =
        regAddAll c impl
          (if impl f then ⟨mapSet st.flows ⟨some c, f⟩ st.fresh, st.fresh + 1⟩ else st)
          fs := rfl
    rw [hstep, ih]
    by_cases hf : impl f = true
    · rw [if_pos hf]
      have hm : x ∈ regKeys (⟨mapSet st.flows ⟨some c, f⟩ st.fresh, st.fresh + 1⟩ : RegState) ↔
          x ∈ regKeys st ∨ x = ⟨some c, f⟩ :=
        mem_flowMapKeys_mapSet st.flows ⟨some c, f⟩ x st.fresh
      rw [hm]
      constructor
      · rintro ((h | rfl) | ⟨g, hg, hig, rfl⟩)
        · exact Or.inl h
        · exact Or.inr ⟨f, List.mem_cons_self f fs, hf, rfl⟩
        · exact Or.inr ⟨g, List.mem_cons_of_mem f hg, hig, rfl⟩
      · rintro (h | ⟨g, hg, hig, rfl⟩)
        · exact Or.inl (Or.inl h)
        · rcases List.mem_cons.mp hg with rfl | hg2
          · exact Or.inl (Or.inr rfl)
          · exact Or.inr ⟨g, hg2, hig, rfl⟩
    · rw [if_neg hf]
      constructor
      · rintro (h | ⟨g, hg, hig, rfl⟩)
        · exact Or.inl h
        · exact Or.inr ⟨g, List.mem_cons_of_mem f hg, hig, rfl⟩
      · rintro (h | ⟨g, hg, hig, rfl⟩)
        · exact Or.inl h
        · rcases List.mem_cons.mp hg with rfl | hg2
          · exact absurd hig hf
          · exact Or.inr ⟨g, hg2, hig, rfl⟩

/-- Key-set characterization of the per-contract registration over a list
of linearized base contracts. -/
theorem mem_regKeys_visitBases (info : ContractId → ContractInfo)
    (impl : CallableId → Bool) (c : ContractId) (bases : List ContractId) :
    ∀ (st : RegState) (xc : Option ContractId) (xf : CallableId),
      (⟨xc, xf⟩ : ContractCallableTuple) ∈ regKeys (bases.foldl
        (fun st1 base =>
          regAddAll c impl (regAddAll c impl st1 (info base).definedFunctions)
            (info base).functionModifiers) st) ↔
      (⟨xc, xf⟩ : ContractCallableTuple) ∈ regKeys st ∨
        (xc = some c ∧ impl xf = true ∧ ∃ b, b ∈ bases ∧
          (xf ∈ (info b).definedFunctions ∨ xf ∈ (info b).functionModifiers)) := by
  induction bases with
  | nil =>
    intro st xc xf
    simp
  | cons b bs ih =>
    intro st xc xf
    rw [List.foldl_cons, ih]
    rw [mem_regKeys_regAddAll, mem_regKeys_regAddAll]
    constructor
    · rintro (((h | ⟨f, hf, hif, he⟩) | ⟨f, hf, hif, he⟩) | ⟨hxc, hixf, b2, hb2, hmem⟩)
      · exact Or.inl h
      · rw [ContractCallableTuple.mk.injEq] at he
        obtain ⟨he1, he2⟩ := he
        subst he2
        exact Or.inr ⟨he1, hif, b, List.mem_cons_self b bs, Or.inl hf⟩
      · rw [ContractCallableTuple.mk.injEq] at he
        obtain ⟨he1, he2⟩ := he
        subst he2
        exact Or.inr ⟨he1, hif, b, List.mem_cons_self b bs, Or.inr hf⟩
      · exact Or.inr ⟨hxc, hixf, b2, List.mem_cons_of_mem b hb2, hmem⟩
    · rintro (h | ⟨hxc, hixf, b2, hb2, hmem⟩)
      · exact Or.inl (Or.inl (Or.inl h))
      · rcases List.mem_cons.mp hb2 with rfl | hb3
        · subst hxc
          rcases hmem with hm1 | hm2
          · exact Or.inl (Or.inl (Or.inr ⟨xf, hm1, hixf, rfl⟩))
          · exact Or.inl (Or.inr ⟨xf, hm2, hixf, rfl⟩)
        · exact Or.inr ⟨hxc, hixf, b2, hb3, hmem⟩

/-- C6 amended: visiting a contract `c` adds to the registry exactly the
keys `(c, f)` — keyed by the visited, most-derived contract `c` itself —
for the implemented functions and modifiers `f` directly defined in any
contract of `c`'s linearized base-contract list. In particular an
inherited-but-not-overridden function is reachable through the key of
every contract that inherits it, not only its defining contract's. -/
theorem registry_keys_of_visit_contract (info : ContractId → ContractInfo)
    (impl : CallableId → Bool) (c : ContractId) (st : RegState)
    (x : ContractCallableTuple) :
    x ∈ regKeys (visitContract info impl c st) ↔
      x ∈ regKeys st ∨
        (x.contract = some c ∧ impl x.callable = true ∧
          ∃ b, b ∈ (info c).linearizedBaseContracts ∧
            (x.callable ∈ (info b).definedFunctions ∨
             x.callable ∈ (info b).functionModifiers)) := by
  obtain ⟨xc, xf⟩ := x
  exact mem_regKeys_visitBases info impl c (info c).linearizedBaseContracts st xc xf

/-- Forward membership for ordered-set insertion (no injectivity needed). -/
theorem mem_of_mem_insertEnc (enc : α → Nat) (x y : α) (l : List α)
    (h : y ∈ insertEnc enc x l) : y = x ∨ y ∈ l := by
  induction l with
  | nil =>
    simp [insertEnc] at h
    exact Or.inl h
  | cons z zs ih =>
    unfold insertEnc at h
    by_cases h1 : enc x < enc z
    · rw [if_pos h1] at h
      rcases List.mem_cons.mp h with rfl | h2
      · exact Or.inl rfl
      · exact Or.inr h2
    · rw [if_neg h1] at h
      by_cases h2 : enc x = enc z
      · rw [if_pos h2] at h
        exact Or.inr h
      · rw [if_neg h2] at h
        rcases List.mem_cons.mp h with rfl | h3
        · exact Or.inr (List.mem_cons_self y zs)
        · rcases ih h3 with rfl | h4
          · exact Or.inl rfl
          · exact Or.inr (List.mem_cons_of_mem z h4)

/-- Membership characterization of ordered-set insertion, for an
injective encoding. -/
theorem mem_insertEnc (enc : α → Nat) (hinj : ∀ a b, enc a = enc b → a = b)
    (x y : α) (l : List α) : y ∈ insertEnc enc x l ↔ y = x ∨ y ∈ l := by
  constructor
  · exact mem_of_mem_insertEnc enc x y l
  · intro h
    induction l with
    | nil =>
      rcases h with rfl | h2
      · simp [insertEnc]
      · cases h2
    | cons z zs ih =>
      unfold insertEnc
      by_cases h1 : enc x < enc z
      · rw [if_pos h1]
        rcases h with rfl | h2
        · exact List.mem_cons_self y _
        · exact List.mem_cons_of_mem x h2
      · rw [if_neg h1]
        by_cases h2 : enc x = enc z
        · rw [if_pos h2]
          rcases h with rfl | h3
          · rw [hinj y z h2]
            exact List.mem_cons_self z zs
          · exact h3
        · rw [if_neg h2]
          rcases h with rfl | h3
          · exact List.mem_cons_of_mem z (ih (Or.inl rfl))
          · rcases List.mem_cons.mp h3 with h5 | h4
            · rw [h5]
              exact List.mem_cons_self _ _
            · exact List.mem_cons_of_mem z (ih (Or.inr h4))

/-- Ordered-set insertion preserves strict sortedness. -/
theorem pairwise_insertEnc (enc : α → Nat) (x : α) (l : List α)
    (hl : l.Pairwise (fun a b => enc a < enc b)) :
    (insertEnc enc x l).Pairwise (fun a b => enc a < enc b) := by
  induction l with
  | nil => simp [insertEnc]
  | cons z zs ih =>
    rw [List.pairwise_cons] at hl
    obtain ⟨hz, hzs⟩ := hl
    unfold insertEnc
    by_cases h1 : enc x < enc z
    · rw [if_pos h1]
      refine List.Pairwise.cons ?_ (List.Pairwise.cons hz hzs)
      intro y hy
      rcases List.mem_cons.mp hy with rfl | hy2
      · exact h1
      · exact lt_trans h1 (hz y hy2)
    · rw [if_neg h1]
      by_cases h2 : enc x = enc z
      · rw [if_pos h2]
        exact List.Pairwise.cons hz hzs
      · rw [if_neg h2]
        refine List.Pairwise.cons ?_ (ih hzs)
        intro y hy
        rcases mem_of_mem_insertEnc enc x y zs hy with rfl | hy2
        · omega
        · exact hz y hy2

/-- A strictly `enc`-sorted list has no duplicates. -/
theorem nodup_of_pairwise_enc (enc : α → Nat) (l : List α)
    (hl : l.Pairwise (fun a b => enc a < enc b)) : l.Nodup :=
  hl.imp (fun h => by
    intro he
    subst he
    omega)

/-- Sorting preserves strict sortedness of the accumulator (the result of
`sortEnc` is strictly sorted). -/
theorem pairwise_sortEnc_fold (enc : α → Nat) (l acc : List α)
    (hacc : acc.Pairwise (fun a b => enc a < enc b)) :
    (l.foldl (fun a x => insertEnc enc x a) acc).Pairwise
      (fun a b => enc a < enc b) := by
  induction l generalizing acc with
  | nil => exact hacc
  | cons x xs ih => exact ih (insertEnc enc x acc) (pairwise_insertEnc enc x acc hacc)

/-- The result of `sortEnc` is strictly sorted. -/
theorem pairwise_sortEnc (enc : α → Nat) (l : List α) :
    (sortEnc enc l).Pairwise (fun a b => enc a < enc b) :=
  pairwise_sortEnc_fold enc l [] List.Pairwise.nil

/-- `sortEnc` neither adds nor removes elements (injective encoding). -/
theorem mem_sortEnc_fold (enc : α → Nat) (hinj : ∀ a b, enc a = enc b → a = b)
    (y : α) (l acc : List α) :
    y ∈ l.foldl (fun a x => insertEnc enc x a) acc ↔ y ∈ acc ∨ y ∈ l := by
  induction l generalizing acc with
  | nil => simp
  | cons x xs ih =>
    rw [List.foldl_cons, ih (insertEnc enc x acc),
      mem_insertEnc enc hinj x y acc, List.mem_cons]
    tauto

/-- `sortEnc` has the same elements as its input (injective encoding). -/
theorem mem_sortEnc (enc : α → Nat) (hinj : ∀ a b, enc a = enc b → a = b)
    (y : α) (l : List α) : y ∈ sortEnc enc l ↔ y ∈ l := by
  rw [sortEnc, mem_sortEnc_fold enc hinj]
  simp

/-- The key encoding is injective. -/
theorem keyEnc_inj (a b : ContractCallableTuple) (h : keyEnc a = keyEnc b) :
    a = b := by
  unfold keyEnc at h
  obtain ⟨hc, hf⟩ := Nat.pair_eq_pair.mp h
  obtain ⟨ac, af⟩ := a
  obtain ⟨bc, bf⟩ := b
  simp only at hc hf
  have hcc : ac = bc := by
    cases ac <;> cases bc <;> simp [optEnc] at hc <;> simp [hc]
  rw [ContractCallableTuple.mk.injEq]
  exact ⟨hcc, hf⟩

/-- A duplicate-free list contained in another list is no longer than it. -/
theorem nodup_subset_length_le [DecidableEq α] {l m : List α} (hl : l.Nodup)
    (hsub : ∀ x ∈ l, x ∈ m) : l.length ≤ m.length := by
  calc l.length = l.toFinset.card := (List.toFinset_card_of_nodup hl).symm
    _ ≤ m.toFinset.card := by
        apply Finset.card_le_card
        intro x hx
        rw [List.mem_toFinset] at hx ⊢
        exact hsub x hx
    _ ≤ m.length := List.toFinset_card_le m

/-- Filtering with a stronger predicate keeps at most as many elements. -/
theorem length_filter_imp_le (p q : α → Bool) (l : List α)
    (h : ∀ x, p x = true → q x = true) :
    (l.filter p).length ≤ (l.filter q).length := by
  induction l with
  | nil => simp
  | cons a l ih =>
    rw [List.filter_cons, List.filter_cons]
    by_cases hp : p a = true
    · rw [if_pos hp, if_pos (h a hp)]
      simpa using ih
    · rw [if_neg hp]
      by_cases hq : q a = true
      · rw [if_pos hq]
        exact le_trans ih (by simp)
      · rw [if_neg hq]
        exact ih

/-- Marking a fresh element visited strictly shrinks the unvisited part
of the universe. -/
theorem length_filter_notmem_cons_lt (u visited : List Nat) (v : Nat)
    (hvu : v ∈ u) (hvv : v ∉ visited) :
    (u.filter (fun x => decide (x ∉ v :: visited))).length <
      (u.filter (fun x => decide (x ∉ visited))).length := by
  induction u with
  | nil => cases hvu
  | cons a u ih =>
    rw [List.filter_cons, List.filter_cons]
    by_cases hav : a = v
    · subst hav
      rw [if_neg (by simp), if_pos (by simpa using hvv)]
      have hle := length_filter_imp_le (fun x => decide (x ∉ a :: visited))
        (fun x => decide (x ∉ visited)) u
        (by
          intro x hx
          rw [decide_eq_true_eq] at hx ⊢
          exact fun hm => hx (List.mem_cons_of_mem a hm))
      simpa using Nat.lt_succ_of_le hle
    · have hvu2 : v ∈ u := by
        rcases List.mem_cons.mp hvu with h | h
        · exact absurd h.symm hav
        · exact h
      have heq : (decide (a ∉ v :: visited)) = (decide (a ∉ visited)) := by
        simp [List.mem_cons, hav]
      rw [heq]
      by_cases ham : (decide (a ∉ visited)) = true
      · rw [if_pos ham, if_pos ham]
        simpa using ih hvu2
      · rw [if_neg ham, if_neg ham]
        exact ih hvu2

/-- The enqueue fold of one traversal step preserves the queue invariants:
strictly sorted, inside the universe, and disjoint from the visited set. -/
theorem queue_fold_props (visited1 u : List NodeId) (children : List NodeId)
    (hchu : ∀ c ∈ children, c ∈ u) :
    ∀ (q : List NodeId), q.Pairwise (fun a b => id a < id b) →
      (∀ x ∈ q, x ∈ u) → (∀ x ∈ q, x ∉ visited1) →
      ((children.foldl (fun q c => if c ∈ visited1 then q else insertEnc id c q) q).Pairwise
          (fun a b => id a < id b) ∧
        (∀ x ∈ children.foldl (fun q c => if c ∈ visited1 then q else insertEnc id c q) q,
          x ∈ u) ∧
        (∀ x ∈ children.foldl (fun q c => if c ∈ visited1 then q else insertEnc id c q) q,
          x ∉ visited1)) := by
  induction children with
  | nil => exact fun q hq hu hv => ⟨hq, hu, hv⟩
  | cons c cs ih =>
    intro q hq hu hv
    rw [List.foldl_cons]
    have hcu : c ∈ u := hchu c (List.mem_cons_self c cs)
    have hcsu : ∀ x ∈ cs, x ∈ u := fun x hx => hchu x (List.mem_cons_of_mem c hx)
    by_cases hc : c ∈ visited1
    · rw [if_pos hc]
      exact ih hcsu q hq hu hv
    · rw [if_neg hc]
      refine ih hcsu (insertEnc id c q) (pairwise_insertEnc id c q hq) ?_ ?_
      · intro x hx
        rcases mem_of_mem_insertEnc id c x q hx with rfl | hx2
        · exact hcu
        · exact hu x hx2
      · intro x hx
        rcases mem_of_mem_insertEnc id c x q hx with rfl | hx2
        · exact hc
        · exact hv x hx2

/-- Modelled from the spec's traversal semantics: a breadth-first search
whose visitor only ever enqueues children from a fixed finite universe
`u` never runs out of fuel once the fuel exceeds the number of unvisited
universe elements. -/
theorem bfsAux_ne_fuelOut {σ : Type}
    (visit : σ → NodeId → Except String (σ × List NodeId)) (u : List NodeId)
    (hch : ∀ s v s1 ch, visit s v = Except.ok (s1, ch) → ∀ c ∈ ch, c ∈ u) :
    ∀ (fuel : Nat) (s : σ) (queue visited : List NodeId),
      queue.Pairwise (fun a b => id a < id b) →
      (∀ x ∈ queue, x ∈ u) →
      (∀ x ∈ queue, x ∉ visited) →
      (u.filter (fun x => decide (x ∉ visited))).length < fuel →
      bfsAux visit fuel s queue visited ≠ RunResult.fuelOut := by
  intro fuel
  induction fuel with
  | zero =>
    intro s q vis _ _ _ hlt
    omega
  | succ n ih =>
    intro s queue visited hpw hqu hqv hlt
    cases queue with
    | nil =>
      intro h
      rw [bfsAux] at h
      cases h
    | cons v rest =>
      have hbfs : bfsAux visit (n + 1) s (v :: rest) visited =
          (match visit s v with
          | .error m => RunResult.aborted m
          | .ok (s1, ch) =>
            bfsAux visit n s1
              (ch.foldl (fun q c => if c ∈ v :: visited then q else insertEnc id c q) rest)
              (v :: visited)) := by
        rw [bfsAux]
      rw [hbfs]
      cases hv : visit s v with
      | error m =>
        intro h
        cases h
      | ok pr =>
        obtain ⟨s1, ch⟩ := pr
        dsimp only
        have hrestpw : rest.Pairwise (fun a b => id a < id b) :=
          (List.pairwise_cons.mp hpw).2
        have hhead : ∀ x ∈ rest, v < x := (List.pairwise_cons.mp hpw).1
        have hrestu : ∀ x ∈ rest, x ∈ u := fun x hx => hqu x (List.mem_cons_of_mem v hx)
        have hrestv : ∀ x ∈ rest, x ∉ v :: visited := by
          intro x hx
          rw [List.mem_cons]
          rintro (rfl | hmem)
          · exact absurd (hhead x hx) (lt_irrefl x)
          · exact hqv x (List.mem_cons_of_mem v hx) hmem
        have hchu : ∀ c ∈ ch, c ∈ u := hch s v s1 ch hv
        obtain ⟨hq1, hq2, hq3⟩ := queue_fold_props (v :: visited) u ch hchu rest
          hrestpw hrestu hrestv
        have hmeas :
            (u.filter (fun x => decide (x ∉ v :: visited))).length < n := by
          have hdec : (u.filter (fun x => decide (x ∉ v :: visited))).length <
              (u.filter (fun x => decide (x ∉ visited))).length :=
            length_filter_notmem_cons_lt u visited v
              (hqu v (List.mem_cons_self v rest)) (hqv v (List.mem_cons_self v rest))
          omega
        exact ih s1 _ (v :: visited) hq1 hq2 hq3 hmeas

/-- Every exit edge of an arena node lies in the arena's exit-edge
universe. -/
theorem exits_getD_mem_allExits (nodes : List CFGNode) (v : NodeId) :
    ∀ c ∈ (nodes.getD v default).exits, c ∈ allExits nodes := by
  intro c hc
  by_cases hv : v < nodes.length
  · have hg : nodes.getD v default = nodes[v] := List.getD_eq_getElem nodes default hv
    rw [hg] at hc
    unfold allExits
    rw [List.mem_flatten]
    exact ⟨nodes[v].exits,
      List.mem_map_of_mem (fun n => n.exits) (List.getElem_mem hv), hc⟩
  · have hg : nodes.getD v default = default := by
      rw [List.getD_eq_getElem?_getD,
        List.getElem?_eq_none (Nat.le_of_not_lt hv)]
      rfl
    rw [hg] at hc
    cases hc

/-- The children emitted by the classification visitor are either nothing
or the node's exit list. -/
theorem classifierVisit_children (p : Program)
    (states : ContractCallableTuple → RevertState) (item : ContractCallableTuple)
    (flow : FunctionFlow) (cs : CState) (v : NodeId) (s1 : CState)
    (ch : List NodeId)
    (h : classifierVisit p states item flow cs v = Except.ok (s1, ch)) :
    ch = [] ∨ ch = (p.nodes.getD v default).exits := by
  simp only [classifierVisit] at h
  repeat' split at h
  all_goals cases h <;> first | exact Or.inl rfl | exact Or.inr rfl

/-- The node-id universe of one traversal: the flow's distinguished
entry/revert handles together with every exit edge in the arena, as a
sorted set. -/
def bfsUniverse (p : Program) (flow : FunctionFlow) : List NodeId :=
  sortEnc id (flow.entry :: flow.revert :: allExits p.nodes)

/-- A classification traversal never exhausts its fuel: `bfsFuel` exceeds
the number of distinct node ids that can ever enter the worklist. -/
theorem classifierBfs_ne_fuelOut (p : Program)
    (states : ContractCallableTuple → RevertState)
    (wake : List (ContractCallableTuple × List ContractCallableTuple))
    (item : ContractCallableTuple) :
    classifierBfs p states wake item ≠ RunResult.fuelOut := by
  unfold classifierBfs
  have hidinj : ∀ a b : Nat, id a = id b → a = b := fun a b h => h
  apply bfsAux_ne_fuelOut (classifierVisit p states item (p.flow item))
    (bfsUniverse p (p.flow item))
  · intro s v s1 ch h c hc
    rcases classifierVisit_children p states item (p.flow item) s v s1 ch h with
      rfl | rfl
    · cases hc
    · rw [bfsUniverse, mem_sortEnc id hidinj]
      exact List.mem_cons_of_mem _ (List.mem_cons_of_mem _
        (exits_getD_mem_allExits p.nodes v c hc))
  · exact List.pairwise_singleton _ _
  · intro x hx
    rcases List.mem_cons.mp hx with rfl | hx2
    · rw [bfsUniverse, mem_sortEnc id hidinj]
      exact List.mem_cons_self _ _
    · cases hx2
  · intro x _ hx
    cases hx
  · have hfil : (bfsUniverse p (p.flow item)).filter
        (fun x => decide (x ∉ ([] : List NodeId))) = bfsUniverse p (p.flow item) := by
      rw [List.filter_eq_self]
      intro a _
      simp
    rw [hfil]
    exact Nat.lt_succ_self _

/-- A worklist iteration can end normally or abort, but never exhausts
the (internally computed) traversal fuel. -/
theorem classifierStep_ne_fuelOut (p : Program) (s : LoopState)
    (item : ContractCallableTuple) (rest : List ContractCallableTuple) :
    classifierStep p s item rest ≠ RunResult.fuelOut := by
  intro h
  unfold classifierStep at h
  split at h
  · cases h
  · cases hbfs : classifierBfs p s.states s.wakeUp item with
    | fuelOut => exact classifierBfs_ne_fuelOut p s.states s.wakeUp item hbfs
    | aborted m =>
      rw [hbfs] at h
      cases h
    | ok cst vis =>
      rw [hbfs] at h
      dsimp only at h
      split at h <;> cases h

/-- All keys stored in the wake-list values lie in the registry key set. -/
def WakeGood (p : Program)
    (w : List (ContractCallableTuple × List ContractCallableTuple)) : Prop :=
  ∀ kv ∈ w, ∀ k ∈ kv.2, k ∈ keysSorted p

/-- `wakeUp[callee].insert(item)` keeps the wake list inside the registry
key set when the inserted key is a registry key. -/
theorem wakeGood_wakeInsert (p : Program)
    (w : List (ContractCallableTuple × List ContractCallableTuple))
    (callee item : ContractCallableTuple) (hg : WakeGood p w)
    (hitem : item ∈ keysSorted p) : WakeGood p (wakeInsert w callee item) := by
  intro kv hkv k hk
  unfold wakeInsert at hkv
  by_cases hany : w.any (fun kv => decide (kv.1 = callee)) = true
  · rw [if_pos hany] at hkv
    rw [List.mem_map] at hkv
    obtain ⟨kv0, hkv0, heq⟩ := hkv
    by_cases hc : kv0.1 = callee
    · rw [if_pos hc] at heq
      subst heq
      rcases mem_of_mem_insertEnc keyEnc item k kv0.2 hk with rfl | hk2
      · exact hitem
      · exact hg kv0 hkv0 k hk2
    · rw [if_neg hc] at heq
      subst heq
      exact hg kv0 hkv0 k hk
  · rw [if_neg hany] at hkv
    rcases List.mem_append.mp hkv with hin | hone
    · exact hg kv hin k hk
    · rcases List.mem_singleton.mp hone with rfl
      rcases List.mem_singleton.mp hk with rfl
      exact hitem

/-- Keys woken by a settling key were recorded in the wake list, hence are
registry keys. -/
theorem wakeLookup_good (p : Program)
    (w : List (ContractCallableTuple × List ContractCallableTuple))
    (item : ContractCallableTuple) (hg : WakeGood p w) :
    ∀ k ∈ wakeLookup w item, k ∈ keysSorted p := by
  intro k hk
  unfold wakeLookup at hk
  cases hf : w.find? (fun kv => decide (kv.1 = item)) with
  | none =>
    rw [hf] at hk
    cases hk
  | some kv =>
    rw [hf] at hk
    exact hg kv (List.mem_of_find?_eq_some hf) k hk

/-- A state property preserved by every visit is preserved by the whole
traversal. -/
theorem bfsAux_preserves {σ : Type}
    (visit : σ → NodeId → Except String (σ × List NodeId)) (P : σ → Prop)
    (hv : ∀ s v s1 ch, visit s v = Except.ok (s1, ch) → P s → P s1) :
    ∀ (fuel : Nat) (s : σ) (queue visited : List NodeId) (s1 : σ)
      (vis1 : List NodeId),
      bfsAux visit fuel s queue visited = RunResult.ok s1 vis1 → P s → P s1 := by
  intro fuel
  induction fuel with
  | zero =>
    intro s q vis s1 vis1 h
    cases h
  | succ n ih =>
    intro s q vis s1 vis1 h hp
    cases q with
    | nil =>
      rw [bfsAux] at h
      cases h
      exact hp
    | cons v rest =>
      have hb : bfsAux visit (n + 1) s (v :: rest) vis =
          (match visit s v with
          | .error m => RunResult.aborted m
          | .ok (s2, ch) =>
            bfsAux visit n s2
              (ch.foldl (fun q c => if c ∈ v :: vis then q else insertEnc id c q) rest)
              (v :: vis)) := by
        rw [bfsAux]
      rw [hb] at h
      cases hv0 : visit s v with
      | error m =>
        rw [hv0] at h
        cases h
      | ok pr =>
        obtain ⟨s2, ch⟩ := pr
        rw [hv0] at h
        dsimp only at h
        exact ih s2 _ _ s1 vis1 h (hv s v s2 ch hv0 hp)

/-- The classification visitor only ever extends the wake list with the
in-progress key, so `WakeGood` is preserved. -/
theorem classifierVisit_wakeGood (p : Program)
    (states : ContractCallableTuple → RevertState) (item : ContractCallableTuple)
    (flow : FunctionFlow) (hitem : item ∈ keysSorted p) (cs : CState) (v : NodeId)
    (s1 : CState) (ch : List NodeId)
    (h : classifierVisit p states item flow cs v = Except.ok (s1, ch))
    (hg : WakeGood p cs.wakeUp) : WakeGood p s1.wakeUp := by
  simp only [classifierVisit] at h
  repeat' split at h
  all_goals cases h
  all_goals first
    | exact hg
    | exact wakeGood_wakeInsert p cs.wakeUp _ item hg hitem

/-- A completed classification traversal keeps the wake list inside the
registry key set. -/
theorem classifierBfs_wakeGood (p : Program)
    (states : ContractCallableTuple → RevertState)
    (wake : List (ContractCallableTuple × List ContractCallableTuple))
    (item : ContractCallableTuple) (cst : CState) (vis : List NodeId)
    (hitem : item ∈ keysSorted p)
    (h : classifierBfs p states wake item = RunResult.ok cst vis)
    (hg : WakeGood p wake) : WakeGood p cst.wakeUp := by
  unfold classifierBfs at h
  exact bfsAux_preserves _ (fun cs => WakeGood p cs.wakeUp)
    (fun s v s1 ch hv hp =>
      classifierVisit_wakeGood p states item (p.flow item) hitem s v s1 ch hv hp)
    _ _ _ _ cst vis h hg

/-- Folding ordered-set insertions of good elements into a sorted list of
good elements stays sorted and good. -/
theorem foldl_insertEnc_props (enc : α → Nat) (good : α → Prop)
    (xs : List α) (hxs : ∀ x ∈ xs, good x) :
    ∀ (q : List α), q.Pairwise (fun a b => enc a < enc b) → (∀ x ∈ q, good x) →
      ((xs.foldl (fun q k => insertEnc enc k q) q).Pairwise
          (fun a b => enc a < enc b) ∧
        ∀ x ∈ xs.foldl (fun q k => insertEnc enc k q) q, good x) := by
  induction xs with
  | nil => exact fun q hq hg => ⟨hq, hg⟩
  | cons x xs ih =>
    intro q hq hg
    rw [List.foldl_cons]
    refine ih (fun y hy => hxs y (List.mem_cons_of_mem x hy)) (insertEnc enc x q)
      (pairwise_insertEnc enc x q hq) ?_
    intro y hy
    rcases mem_of_mem_insertEnc enc x y q hy with rfl | hy2
    · exact hxs y (List.mem_cons_self y xs)
    · exact hg y hy2

/-- The number of still-`Unknown` registry keys under a state map. -/
def unknownCount (p : Program) (st : ContractCallableTuple → RevertState) : Nat :=
  ((keysSorted p).filter (fun k => decide (st k = RevertState.Unknown))).length

/-- The decreasing measure of the classification worklist loop. -/
def loopMeasure (p : Program) (s : LoopState) : Nat :=
  unknownCount p s.states * ((keysSorted p).length + 1) + s.pending.length

/-- The loop invariant of `findRevertStates`: pending keys are registry
keys held as a sorted set, and the wake list only stores registry keys. -/
def LoopInv (p : Program) (s : LoopState) : Prop :=
  (∀ k ∈ s.pending, k ∈ keysSorted p) ∧
  s.pending.Pairwise (fun a b => keyEnc a < keyEnc b) ∧
  WakeGood p s.wakeUp

/-- The sorted registry key list is duplicate-free. -/
theorem keysSorted_nodup (p : Program) : (keysSorted p).Nodup :=
  nodup_of_pairwise_enc keyEnc _ (pairwise_sortEnc keyEnc p.flowKeys)

/-- Settling one still-unknown key decreases the unknown-key count by
exactly one. -/
theorem length_filter_update_succ (l : List ContractCallableTuple)
    (item : ContractCallableTuple) (st : ContractCallableTuple → RevertState)
    (ns : RevertState) (hnd : l.Nodup) (hmem : item ∈ l)
    (hu : st item = RevertState.Unknown) (hns : ns ≠ RevertState.Unknown) :
    (l.filter (fun k =>
        decide ((if k = item then ns else st k) = RevertState.Unknown))).length + 1 =
      (l.filter (fun k => decide (st k = RevertState.Unknown))).length := by
  induction l with
  | nil => cases hmem
  | cons a l ih =>
    rw [List.filter_cons, List.filter_cons]
    rcases List.mem_cons.mp hmem with h0 | hm2
    · subst h0
      have hnotin : item ∉ l := (List.nodup_cons.mp hnd).1
      have hnew : (decide ((if item = item then ns else st item) = RevertState.Unknown)) = false := by
        rw [if_pos rfl]
        simpa using hns
      have hold : (decide (st item = RevertState.Unknown)) = true := by
        simpa using hu
      rw [hnew, hold, if_neg (by simp), if_pos rfl]
      have hcong : l.filter (fun k =>
          decide ((if k = item then ns else st k) = RevertState.Unknown)) =
          l.filter (fun k => decide (st k = RevertState.Unknown)) := by
        apply List.filter_congr
        intro k hk
        rw [if_neg (show ¬(k = item) from fun he => hnotin (he ▸ hk))]
      rw [hcong]
      simp
    · have hne : a ≠ item := fun he => (List.nodup_cons.mp hnd).1 (he ▸ hm2)
      have hpred : (decide ((if a = item then ns else st a) = RevertState.Unknown)) =
          decide (st a = RevertState.Unknown) := by
        rw [if_neg hne]
      rw [hpred]
      have ihx := ih (List.nodup_cons.mp hnd).2 hm2
      by_cases hpa : (decide (st a = RevertState.Unknown)) = true
      · rw [if_pos hpa, if_pos hpa]
        simp only [List.length_cons]
        omega
      · rw [if_neg hpa, if_neg hpa]
        exact ihx

/-- An unknown registry key witnesses a positive unknown-key count. -/
theorem unknownCount_pos (p : Program) (st : ContractCallableTuple → RevertState)
    (item : ContractCallableTuple) (hitem : item ∈ keysSorted p)
    (hu : st item = RevertState.Unknown) : 1 ≤ unknownCount p st := by
  unfold unknownCount
  have hmem : item ∈ (keysSorted p).filter
      (fun k => decide (st k = RevertState.Unknown)) :=
    List.mem_filter.mpr ⟨hitem, by simpa using hu⟩
  exact List.length_pos_of_mem hmem

/-- The unknown-key count only depends on the pointwise values of the
state map. -/
theorem unknownCount_congr (p : Program)
    (st1 st2 : ContractCallableTuple → RevertState) (h : ∀ k, st1 k = st2 k) :
    unknownCount p st1 = unknownCount p st2 := by
  unfold unknownCount
  rw [List.filter_congr]
  intro k _
  rw [h k]

/-- One completed worklist iteration preserves the loop invariant and
strictly decreases the loop measure: a skipped or still-unknown key only
shrinks the pending set, and a settling key trades one unknown key for at
most a full pending set of woken keys. -/
theorem classifierStep_measure (p : Program) (s : LoopState)
    (item : ContractCallableTuple) (rest : List ContractCallableTuple)
    (s1 : LoopState) (vis : List NodeId)
    (hpend : s.pending = item :: rest) (hinv : LoopInv p s)
    (h : classifierStep p s item rest = RunResult.ok s1 vis) :
    LoopInv p s1 ∧ loopMeasure p s1 < loopMeasure p s := by
  obtain ⟨hsub, hpw, hwg⟩ := hinv
  have hitem : item ∈ keysSorted p := hsub item (by rw [hpend]; exact List.mem_cons_self _ _)
  have hrsub : ∀ k ∈ rest, k ∈ keysSorted p := fun k hk =>
    hsub k (by rw [hpend]; exact List.mem_cons_of_mem _ hk)
  have hrpw : rest.Pairwise (fun a b => keyEnc a < keyEnc b) := by
    rw [hpend] at hpw
    exact (List.pairwise_cons.mp hpw).2
  have hplen : s.pending.length = rest.length + 1 := by rw [hpend]; rfl
  unfold classifierStep at h
  split at h
  · -- already settled: skip
    cases h
    refine ⟨⟨hrsub, hrpw, hwg⟩, ?_⟩
    unfold loopMeasure
    dsimp only
    omega
  · -- still unknown: traverse and decide
    rename_i hit0
    have hit : s.states item = RevertState.Unknown := not_not.mp hit0
    cases hbfs : classifierBfs p s.states s.wakeUp item with
    | fuelOut =>
      rw [hbfs] at h
      cases h
    | aborted m =>
      rw [hbfs] at h
      cases h
    | ok cst vis2 =>
      rw [hbfs] at h
      dsimp only at h
      have hwg2 : WakeGood p cst.wakeUp :=
        classifierBfs_wakeGood p s.states s.wakeUp item cst vis2 hitem hbfs hwg
      split at h
      · -- the key settles: wake the stalled keys
        rename_i hne
        cases h
        have hwoken : ∀ k ∈ (wakeLookup cst.wakeUp item).filter
            (fun k => decide ((if k = item then
              decideRevertState cst.foundExit cst.foundPlaceholder cst.foundUnknown
                (s.states item) else s.states k) = RevertState.Unknown)),
            k ∈ keysSorted p := by
          intro k hk
          exact wakeLookup_good p cst.wakeUp item hwg2 k (List.mem_filter.mp hk).1
        obtain ⟨hq1, hq2⟩ := foldl_insertEnc_props keyEnc
          (fun k => k ∈ keysSorted p) _ hwoken rest hrpw hrsub
        refine ⟨⟨hq2, hq1, ?_⟩, ?_⟩
        · intro kv hkv k hk
          exact hwg2 kv (List.mem_of_mem_filter hkv) k hk
        · unfold loopMeasure unknownCount
          dsimp only
          have hcnt := length_filter_update_succ (keysSorted p) item s.states
            (decideRevertState cst.foundExit cst.foundPlaceholder cst.foundUnknown
              (s.states item)) (keysSorted_nodup p) hitem hit hne
          have hlen : (List.foldl (fun q k => insertEnc keyEnc k q) rest
              ((wakeLookup cst.wakeUp item).filter
                (fun k => decide ((if k = item then
                  decideRevertState cst.foundExit cst.foundPlaceholder cst.foundUnknown
                    (s.states item) else s.states k) = RevertState.Unknown)))).length ≤
              (keysSorted p).length :=
            nodup_subset_length_le (nodup_of_pairwise_enc keyEnc _ hq1) hq2
          have hprod : ((keysSorted p).filter
              (fun k => decide (s.states k = RevertState.Unknown))).length *
                ((keysSorted p).length + 1) =
              ((keysSorted p).filter (fun k => decide ((if k = item then
                decideRevertState cst.foundExit cst.foundPlaceholder cst.foundUnknown
                  (s.states item) else s.states k) = RevertState.Unknown))).length *
                ((keysSorted p).length + 1) + ((keysSorted p).length + 1) := by
            rw [← hcnt]
            ring
          omega
      · -- the key stays unknown
        rename_i hnn
        have heq : decideRevertState cst.foundExit cst.foundPlaceholder
            cst.foundUnknown (s.states item) = RevertState.Unknown := not_not.mp hnn
        cases h
        refine ⟨⟨hrsub, hrpw, hwg2⟩, ?_⟩
        unfold loopMeasure
        dsimp only
        have hsame : unknownCount p (fun k => if k = item then
            decideRevertState cst.foundExit cst.foundPlaceholder cst.foundUnknown
              (s.states item) else s.states k) = unknownCount p s.states := by
          apply unknownCount_congr
          intro k
          by_cases hk : k = item
          · rw [if_pos hk, heq, hk, hit]
          · rw [if_neg hk]
        rw [hsame]
        omega

/-- With fuel exceeding the loop measure, the classification worklist
loop never exhausts its fuel. -/
theorem findRevertStatesLoop_ne_fuelOut (p : Program) :
    ∀ (fuel : Nat) (s : LoopState), LoopInv p s → loopMeasure p s < fuel →
      findRevertStatesLoop p fuel s ≠ RunResult.fuelOut := by
  intro fuel
  induction fuel with
  | zero =>
    intro s _ hm
    omega
  | succ n ih =>
    intro s hinv hm
    cases hp : s.pending with
    | nil =>
      have hl : findRevertStatesLoop p (n + 1) s = RunResult.ok s [] := by
        rw [findRevertStatesLoop, hp]
      rw [hl]
      intro hc
      cases hc
    | cons item rest =>
      have hl : findRevertStatesLoop p (n + 1) s =
          (match classifierStep p s item rest with
          | RunResult.ok s1 _ => findRevertStatesLoop p n s1
          | RunResult.aborted m => RunResult.aborted m
          | RunResult.fuelOut => RunResult.fuelOut) := by
        rw [findRevertStatesLoop, hp]
      rw [hl]
      cases hstep : classifierStep p s item rest with
      | fuelOut => exact absurd hstep (classifierStep_ne_fuelOut p s item rest)
      | aborted m =>
        intro hc
        cases hc
      | ok s1 vis =>
        obtain ⟨hinv1, hlt⟩ := classifierStep_measure p s item rest s1 vis hp hinv hstep
        dsimp only
        exact ih s1 hinv1 (by omega)

/-- C7: the classifier's worklist loop terminates on every input — run
with the explicit fuel bound `(N+1)^2` for `N` registry keys (each key is
re-enqueued only when some other key settles, and each key settles at
most once), `findRevertStates` always reaches a result, even when the
call graph contains recursive cycles. -/
theorem findRevertStates_terminates (p : Program) :
    findRevertStates p ≠ RunResult.fuelOut := by
  apply findRevertStatesLoop_ne_fuelOut
  · refine ⟨fun k hk => hk, pairwise_sortEnc keyEnc p.flowKeys, ?_⟩
    intro kv hkv
    cases hkv
  · unfold loopMeasure unknownCount classifierFuel
    dsimp only
    have hfil : (keysSorted p).filter
        (fun k => decide ((fun _ => RevertState.Unknown) k = RevertState.Unknown)) =
        keysSorted p := by
      rw [List.filter_eq_self]
      intro a _
      simp
    rw [hfil]
    have hN : 0 ≤ (keysSorted p).length := Nat.zero_le _
    nlinarith [Nat.zero_le (keysSorted p).length]
